import Mathlib

/-!
# Verification of the Mini Blockchain ledger (AbubakarMahmood1/BlockChain_Class)

Shallow embedding of the repository's core: account store, zakat (levy)
assessment, pending-transfer application, the mining pipeline of
`console_main.py` and `streamlit_main.py`, and the hash-linked chain
(`Block`/`Blockchain` from the `block`/`miner` modules, which are imported
by the front-ends but absent from the repository; those are modelled from
the spec).

Monetary amounts are modelled as rationals (the Python code uses floats;
the spec speaks of exact decimal amounts).
-/

namespace MiniBlockchain

/-- An account record as stored in `self.accounts`:
`{account_name: {"balance": amount, "roll_no": roll_number}}`
(`console_main.py` line 11, `streamlit_main.py` line 12). -/
structure Account where
  balance : ℚ
  roll_no : String
  deriving Repr, DecidableEq

/-- The account store: a Python dict modelled as an insertion-ordered
association list from account name to account record. -/
abbrev AccountMap := List (String × Account)

/-- A pending transfer as held by `TransactionWrapper`
(`console_main.py` lines 359-376): sender name, receiver name, amount. -/
structure Tx where
  sender : String
  receiver : String
  amount : ℚ
  deriving Repr, DecidableEq

instance : Inhabited Tx := ⟨⟨"", "", 0⟩⟩

/-- Look up an account by name (Python `name in accounts` / `accounts[name]`). -/
def AccountMap.find : AccountMap → String → Option Account
  | [], _ => none
  | (k, a) :: rest, name => if name = k then some a else AccountMap.find rest name

/-- Balance of an account, defaulting to 0 for an absent name. -/
def AccountMap.balanceOf (accounts : AccountMap) (name : String) : ℚ :=
  ((accounts.find name).map Account.balance).getD 0

/-- Roll number (owner identifier) of an account, defaulting to "" for an
absent name. -/
def AccountMap.rollOf (accounts : AccountMap) (name : String) : String :=
  ((accounts.find name).map Account.roll_no).getD ""

/-- `accounts[name]["balance"] += d` on the dict model: adjust the balance
of every entry with the given key (keys are unique in a Python dict). -/
def AccountMap.addBal (accounts : AccountMap) (name : String) (d : ℚ) : AccountMap :=
  accounts.map (fun p => (p.1, if p.1 = name then ⟨p.2.balance + d, p.2.roll_no⟩ else p.2))

/-- `calculate_zakat(balance, rate=0.025)` — zakat is `balance * rate`
(`console_main.py` lines 25-27). -/
def calculate_zakat (balance : ℚ) (rate : ℚ := 1/40) : ℚ := balance * rate

/-- One line of the zakat detail list: account name, roll number, amount. -/
structure ZakatDetail where
  name : String
  roll_no : String
  amount : ℚ
  deriving Repr, DecidableEq

/-- `apply_zakat_to_accounts` (`console_main.py` lines 29-44,
`streamlit_main.py` lines 21-36): iterate over the accounts in order; every
account whose balance is at least the threshold is debited
`calculate_zakat(balance)`; return the updated store, the total collected
and the per-account detail list.  The console uses threshold 100, the
dashboards 1000; the threshold and the rate are the parameters here and the
front-end instances fix them below. -/
def apply_zakat (rate threshold : ℚ) : AccountMap → AccountMap × ℚ × List ZakatDetail
  | [] => ([], 0, [])
  | (n, a) :: rest =>
    if a.balance ≥ threshold then
      let z := calculate_zakat a.balance rate
      let r := apply_zakat rate threshold rest
      ((n, ⟨a.balance - z, a.roll_no⟩) :: r.1, z + r.2.1, ⟨n, a.roll_no, z⟩ :: r.2.2)
    else
      let r := apply_zakat rate threshold rest
      ((n, a) :: r.1, r.2.1, r.2.2)

/-- Console front-end zakat assessment: rate 2.5 %, threshold 100
(`console_main.py` lines 25-31). -/
def consoleApplyZakat (accounts : AccountMap) : AccountMap × ℚ × List ZakatDetail :=
  apply_zakat (1/40) 100 accounts

/-- Dashboard front-end zakat assessment: rate 2.5 %, threshold 1000
(`streamlit_main.py` lines 17-23). -/
def streamlitApplyZakat (accounts : AccountMap) : AccountMap × ℚ × List ZakatDetail :=
  apply_zakat (1/40) 1000 accounts

/-- `TransactionWrapper.apply_to_accounts` (`console_main.py` lines 367-376,
`streamlit_main.py` lines 45-54): raise if sender or receiver is absent,
raise if the sender's balance is below the amount, otherwise debit the
sender and credit the receiver by the amount. -/
def apply_to_accounts (accounts : AccountMap) (t : Tx) : Except String AccountMap :=
  if (accounts.find t.sender).isNone ∨ (accounts.find t.receiver).isNone then
    .error "Sender or receiver does not exist."
  else if accounts.balanceOf t.sender < t.amount then
    .error "Insufficient balance."
  else
    .ok ((accounts.addBal t.sender (-t.amount)).addBal t.receiver t.amount)

/-- One opaque log line of a block's transaction log.  The Python code
stores formatted strings; we keep the structured content of each line
(`Zakat Collection: ... collected`, a per-account zakat detail line, or a
transfer record `sender (roll) → receiver (roll): amount`). -/
inductive Entry where
  | zakatSummary (collected : ℚ)
  | zakatDetail (name roll_no : String) (amount : ℚ)
  | transferRec (sender sroll receiver rroll : String) (amount : ℚ)
  | genesis
  deriving Repr, DecidableEq

/-- Modelled from the spec: the digest of a block.  The repository imports
`Block` from a `block` module that is not in the repository; per the spec a
digest is a deterministic, collision-resistant function of
`(previous_digest, created_at, creator_id, entries)`, with a fixed sentinel
for the genesis link.  Collision resistance is modelled exactly: `node` is
injective in all four fields. -/
inductive Digest where
  | sentinel
  | node (prev : Digest) (created_at : ℕ) (creator_id : String) (entries : List Entry)
  deriving Repr, DecidableEq

/-- Modelled from the spec: a `Block` from the missing `block` module,
using the field names the front-ends access (`prev_hash`, `timestamp`,
`roll_no`, `transactions`, `hash`); the stored `hash` is computed once at
construction over the other four fields. -/
structure Block where
  prev_hash : Digest
  timestamp : ℕ
  roll_no : String
  transactions : List Entry
  hash : Digest
  deriving Repr, DecidableEq

/-- Recompute a block's digest from its contents. -/
def Block.recompute (b : Block) : Digest :=
  .node b.prev_hash b.timestamp b.roll_no b.transactions

/-- Construct a block: the stored digest is the digest of the contents. -/
def mkBlock (prev : Digest) (t : ℕ) (roll : String) (entries : List Entry) : Block :=
  ⟨prev, t, roll, entries, .node prev t roll entries⟩

/-- Modelled from the spec: a fresh `Blockchain(roll_no=...)` holds only
the genesis block, whose `prev_hash` is the sentinel and whose entry list
is a fixed genesis marker. -/
def chainNew (roll : String) (t : ℕ) : List Block :=
  [mkBlock .sentinel t roll [.genesis]]

/-- Digest of the current tail of the chain (sentinel for an empty chain). -/
def lastDigest (chain : List Block) : Digest :=
  ((chain.getLast?).map Block.hash).getD .sentinel

/-- Modelled from the spec: `Blockchain.add_block(transactions, roll_no)`
from the missing `miner` module — mining with nothing to record must not
create a block; otherwise a block linking to the current tail's digest is
appended. -/
def add_block (chain : List Block) (entries : List Entry) (roll : String) (t : ℕ) :
    List Block × Bool :=
  if entries = [] then (chain, false)
  else (chain ++ [mkBlock (lastDigest chain) t roll entries], true)

/-- One step of the `is_valid` walk: the block's stored digest must match
recomputation, and (except at the genesis block) its `prev_hash` must match
the predecessor's digest. -/
def blockOk (expected : Option Digest) (b : Block) : Bool :=
  (b.recompute = b.hash) &&
    (match expected with
     | some d => b.prev_hash = d
     | none => true)

/-- Modelled from the spec: the walk of `is_valid`, carrying the recomputed
digest of the previous block.  Returns the index of the first block whose
stored digest differs from recomputation or whose `prev_hash` differs from
its predecessor's digest. -/
def firstInvalidAux (expected : Option Digest) (i : ℕ) : List Block → Option ℕ
  | [] => none
  | b :: rest =>
    if blockOk expected b then firstInvalidAux (some b.recompute) (i + 1) rest
    else some i

/-- First invalid index of a chain, if any. -/
def firstInvalid (chain : List Block) : Option ℕ :=
  firstInvalidAux none 0 chain

/-- Modelled from the spec: `Blockchain.is_valid()` — the chain is valid
when the walk finds no offending block. -/
def is_valid (chain : List Block) : Bool :=
  (firstInvalid chain).isNone

/-- Apply the pending transfers in submission order
(`console_main.py` lines 199-211, `streamlit_main.py` lines 74-84):
each successful application appends a transfer record whose roll numbers
are read from the account store after that application; the first failure
stops the loop, and the account store keeps every mutation made so far. -/
def applyAll (accounts : AccountMap) :
    List Tx → Except (String × AccountMap) (AccountMap × List Entry)
  | [] => .ok (accounts, [])
  | t :: rest =>
    match apply_to_accounts accounts t with
    | .error m => .error (m, accounts)
    | .ok acc' =>
      match applyAll acc' rest with
      | .error e => .error e
      | .ok (accF, recs) =>
        .ok (accF,
          .transferRec t.sender (acc'.rollOf t.sender)
            t.receiver (acc'.rollOf t.receiver) t.amount :: recs)

/-- Outcome of one mining attempt, one case per return site of
`mine_block` / `process_pending_transactions`: the empty-queue early
return, the in-loop transaction failure, the fall-through failure, and
success. -/
inductive MineResult where
  | emptyBatch
  | txFailed (msg : String)
  | mineFailed
  | success
  deriving Repr, DecidableEq

/-- The mutable session state of a front-end: account store, pending
transaction queue and the blockchain. -/
structure LedgerState where
  accounts : AccountMap
  pending : List Tx
  chain : List Block
  deriving Repr, DecidableEq

/-- The head of the record list formed by `mine_block`
(`console_main.py` lines 192-194): one zakat-summary record when a nonzero
total was collected, nothing otherwise (the per-account details are only
printed to the console). -/
def mineRecords0 (collected : ℚ) : List Entry :=
  if collected > 0 then [.zakatSummary collected] else []

/-- The head of the record list formed by `process_pending_transactions`
(`streamlit_main.py` lines 68-72): the zakat-summary record followed by
one detail record per assessed account when a nonzero total was collected,
nothing otherwise. -/
def streamlitRecords0 (collected : ℚ) (details : List ZakatDetail) : List Entry :=
  if collected > 0 then
    .zakatSummary collected :: details.map (fun d => .zakatDetail d.name d.roll_no d.amount)
  else []

/-- `BlockchainConsole.mine_block` (`console_main.py` lines 174-230):
guard on an empty queue; apply zakat (threshold 100); if a nonzero total
was collected put one zakat-summary record at the head of the record list
(the per-account details are only printed to the console, not recorded);
apply the pending transfers in order, aborting on the first failure with
all mutations so far left in place; finally build the block, whose miner
roll number is the first pending transfer's sender's roll number, append
it and clear the queue. -/
def consoleMine (s : LedgerState) (now : ℕ) : MineResult × LedgerState :=
  if s.pending = [] then (.emptyBatch, s)
  else
    let z := consoleApplyZakat s.accounts
    let records0 : List Entry := mineRecords0 z.2.1
    match applyAll z.1 s.pending with
    | .error e => (.txFailed e.1, { s with accounts := e.2 })
    | .ok (accF, recs) =>
      let records := records0 ++ recs
      if records = [] then (.mineFailed, { s with accounts := accF })
      else
        let miner_roll := accF.rollOf (s.pending.headD default).sender
        let r := add_block s.chain records miner_roll now
        if r.2 then (.success, { accounts := accF, pending := [], chain := r.1 })
        else (.mineFailed, { s with accounts := accF, chain := r.1 })

/-- `process_pending_transactions` (`streamlit_main.py` lines 56-99): as
`consoleMine` but the zakat threshold is 1000 and the per-account zakat
detail lines are recorded in the block right after the summary. -/
def streamlitMine (s : LedgerState) (now : ℕ) : MineResult × LedgerState :=
  if s.pending = [] then (.emptyBatch, s)
  else
    let z := streamlitApplyZakat s.accounts
    let records0 : List Entry := streamlitRecords0 z.2.1 z.2.2
    match applyAll z.1 s.pending with
    | .error e => (.txFailed e.1, { s with accounts := e.2 })
    | .ok (accF, recs) =>
      let records := records0 ++ recs
      if records = [] then (.mineFailed, { s with accounts := accF })
      else
        let miner_roll := accF.rollOf (s.pending.headD default).sender
        let r := add_block s.chain records miner_roll now
        if r.2 then (.success, { accounts := accF, pending := [], chain := r.1 })
        else (.mineFailed, { s with accounts := accF, chain := r.1 })

/-- Rejection reasons of transaction submission, one per rejection branch
of `BlockchainConsole.create_transaction`. -/
inductive SubmitError where
  | unknownAccount
  | sameAccount
  | nonPositiveAmount
  | insufficientBalance
  deriving Repr, DecidableEq

/-- `BlockchainConsole.create_transaction` (`console_main.py` lines
106-159), its validation core: the sender and receiver selections must be
accounts of the store, the sender and receiver must differ, the amount
must be positive and the sender's balance must cover it; on success the
transfer is appended to the pending queue and nothing else changes. -/
def create_transaction (s : LedgerState) (sender receiver : String) (amount : ℚ) :
    Except SubmitError LedgerState :=
  if (s.accounts.find sender).isNone ∨ (s.accounts.find receiver).isNone then
    .error .unknownAccount
  else if sender = receiver then .error .sameAccount
  else if amount ≤ 0 then .error .nonPositiveAmount
  else if s.accounts.balanceOf sender < amount then .error .insufficientBalance
  else .ok { s with pending := s.pending ++ [⟨sender, receiver, amount⟩] }

/-- Zakat due as displayed by `view_accounts` (`console_main.py` line 96)
and summed by `display_statistics` (line 302): the 2.5 % figure is shown
only for balances of at least 1000, otherwise 0. -/
def displayedZakatDue (balance : ℚ) : ℚ :=
  if balance ≥ 1000 then calculate_zakat balance else 0

/-! ## Helper lemmas on the account store -/

/-- Is an entry a per-account zakat detail line? -/
def Entry.isZakatDetail : Entry → Bool
  | .zakatDetail _ _ _ => true
  | _ => false

/-- Is an entry a transfer record? -/
def Entry.isTransferRec : Entry → Bool
  | .transferRec _ _ _ _ _ => true
  | _ => false

theorem find_addBal (l : AccountMap) (n m : String) (d : ℚ) :
    (l.addBal n d).find m =
      (l.find m).map (fun a => if m = n then ⟨a.balance + d, a.roll_no⟩ else a) := by
  induction l with
  | nil => rfl
  | cons p t ih =>
    obtain ⟨k, a⟩ := p
    by_cases hm : m = k
    · subst hm
      simp [AccountMap.addBal, AccountMap.find]
    · simp only [AccountMap.addBal, List.map_cons, AccountMap.find, hm, if_neg,
        reduceIte] at ih ⊢
      exact ih

theorem find_apply_zakat (rate threshold : ℚ) (l : AccountMap) (m : String) :
    (apply_zakat rate threshold l).1.find m =
      (l.find m).map (fun a =>
        if a.balance ≥ threshold then ⟨a.balance - a.balance * rate, a.roll_no⟩ else a) := by
  induction l with
  | nil => rfl
  | cons p t ih =>
    obtain ⟨k, a⟩ := p
    by_cases hm : m = k
    · subst hm
      by_cases hth : a.balance ≥ threshold <;>
        simp [apply_zakat, AccountMap.find, hth, calculate_zakat]
    · by_cases hth : a.balance ≥ threshold <;>
        simp only [apply_zakat, hth, if_true, if_false, AccountMap.find, hm,
          reduceIte] at ih ⊢ <;>
        exact ih

theorem rollOf_addBal (l : AccountMap) (n m : String) (d : ℚ) :
    (l.addBal n d).rollOf m = l.rollOf m := by
  unfold AccountMap.rollOf
  rw [find_addBal]
  cases l.find m with
  | none => rfl
  | some a => by_cases h : m = n <;> simp [h]

theorem rollOf_apply_zakat (rate threshold : ℚ) (l : AccountMap) (m : String) :
    (apply_zakat rate threshold l).1.rollOf m = l.rollOf m := by
  unfold AccountMap.rollOf
  rw [find_apply_zakat]
  cases l.find m with
  | none => rfl
  | some a => by_cases h : a.balance ≥ threshold <;> simp [h]

theorem rollOf_apply_to_accounts (l l' : AccountMap) (t : Tx)
    (h : apply_to_accounts l t = .ok l') (m : String) :
    l'.rollOf m = l.rollOf m := by
  unfold apply_to_accounts at h
  split at h
  · exact absurd h (by simp)
  · split at h
    · exact absurd h (by simp)
    · cases h
      rw [rollOf_addBal, rollOf_addBal]

theorem rollOf_applyAll (txs : List Tx) (l accF : AccountMap) (recs : List Entry)
    (h : applyAll l txs = .ok (accF, recs)) (m : String) :
    accF.rollOf m = l.rollOf m := by
  induction txs generalizing l accF recs with
  | nil =>
    simp only [applyAll] at h
    cases h
    rfl
  | cons t rest ih =>
    simp only [applyAll] at h
    split at h
    next => exact absurd h (by simp)
    next acc1 heq =>
      split at h
      next => exact absurd h (by simp)
      next accF1 recs1 heq2 =>
        cases h
        rw [ih acc1 _ _ heq2, rollOf_apply_to_accounts l acc1 t heq m]

theorem isTransferRec_applyAll (txs : List Tx) (l accF : AccountMap) (recs : List Entry)
    (h : applyAll l txs = .ok (accF, recs)) :
    recs.all Entry.isTransferRec = true := by
  induction txs generalizing l accF recs with
  | nil =>
    simp only [applyAll] at h
    cases h
    rfl
  | cons t rest ih =>
    simp only [applyAll] at h
    split at h
    next => exact absurd h (by simp)
    next acc1 heq =>
      split at h
      next => exact absurd h (by simp)
      next accF1 recs1 heq2 =>
        cases h
        simp only [List.all_cons, Entry.isTransferRec, Bool.true_and]
        exact ih acc1 _ _ heq2

theorem collected_zero_of_below (rate threshold : ℚ) (l : AccountMap)
    (h : ∀ p ∈ l, p.2.balance < threshold) :
    (apply_zakat rate threshold l).2.1 = 0 := by
  induction l with
  | nil => rfl
  | cons p t ih =>
    obtain ⟨k, a⟩ := p
    have hlt : a.balance < threshold := h (k, a) (List.mem_cons_self _ _)
    have : ¬ a.balance ≥ threshold := not_le.mpr hlt
    simp only [apply_zakat, this, if_false]
    exact ih (fun q hq => h q (List.mem_cons_of_mem _ hq))

/-! ## Helper lemmas on the chain -/

/-- Propositional reading of a successful `is_valid` walk. -/
def Chained : Option Digest → List Block → Prop
  | _, [] => True
  | e, b :: rest => blockOk e b = true ∧ Chained (some b.recompute) rest

/-- The digest the `is_valid` walk expects of the next block after
traversing `c`, starting from expectation `e`. -/
def expAfter (e : Option Digest) (c : List Block) : Option Digest :=
  match c.getLast? with
  | some b => some b.recompute
  | none => e

theorem firstInvalidAux_eq_none_iff (c : List Block) (e : Option Digest) (i : ℕ) :
    firstInvalidAux e i c = none ↔ Chained e c := by
  induction c generalizing e i with
  | nil => simp [firstInvalidAux, Chained]
  | cons b rest ih =>
    by_cases hok : blockOk e b = true
    · simp [firstInvalidAux, Chained, hok, ih]
    · simp [firstInvalidAux, Chained, hok]

theorem Chained.recompute_eq (c : List Block) (e : Option Digest)
    (h : Chained e c) : ∀ b ∈ c, b.recompute = b.hash := by
  induction c generalizing e with
  | nil => intro b hb; exact absurd hb (List.not_mem_nil b)
  | cons a rest ih =>
    intro b hb
    obtain ⟨hok, hrest⟩ := h
    rcases List.mem_cons.mp hb with hb | hb
    · subst hb
      have := (Bool.and_eq_true _ _).mp hok
      exact of_decide_eq_true this.1
    · exact ih (some a.recompute) hrest b hb

theorem expAfter_cons (e : Option Digest) (a : Block) (t : List Block) :
    expAfter e (a :: t) = expAfter (some a.recompute) t := by
  cases t with
  | nil => rfl
  | cons b t2 =>
    simp only [expAfter, List.getLast?_cons_cons]
    cases h2 : (b :: t2).getLast? with
    | none =>
      have hne : (b :: t2) ≠ [] := by simp
      have hs := List.getLast?_eq_getLast_of_ne_nil hne
      rw [h2] at hs
      exact absurd hs (by simp)
    | some x => simp

theorem chained_append (c : List Block) (b : Block) (e : Option Digest) :
    Chained e (c ++ [b]) ↔ Chained e c ∧ blockOk (expAfter e c) b = true := by
  induction c generalizing e with
  | nil => simp [Chained, expAfter]
  | cons a t ih =>
    constructor
    · rintro ⟨hok, hch⟩
      have hr := (ih (some a.recompute)).mp hch
      exact ⟨⟨hok, hr.1⟩, by rw [expAfter_cons]; exact hr.2⟩
    · rintro ⟨⟨hok, hch⟩, hb⟩
      rw [expAfter_cons] at hb
      exact ⟨hok, (ih (some a.recompute)).mpr ⟨hch, hb⟩⟩

theorem chained_add_block (c : List Block) (entries : List Entry) (roll : String) (t : ℕ)
    (hne : c ≠ []) (h : Chained none c) :
    Chained none (add_block c entries roll t).1 := by
  unfold add_block
  by_cases he : entries = []
  · simp [he, h]
  · simp only [he, if_false, reduceIte]
    rw [chained_append]
    refine ⟨h, ?_⟩
    have hbl : c.getLast? = some (c.getLast hne) := List.getLast?_eq_getLast_of_ne_nil hne
    have hmem : c.getLast hne ∈ c := List.getLast_mem hne
    have hrec : (c.getLast hne).recompute = (c.getLast hne).hash :=
      h.recompute_eq c none (c.getLast hne) hmem
    have hnode : (c.getLast hne).hash =
        Digest.node (c.getLast hne).prev_hash (c.getLast hne).timestamp
          (c.getLast hne).roll_no (c.getLast hne).transactions := hrec.symm
    simp [expAfter, hbl, blockOk, mkBlock, Block.recompute, lastDigest, hnode]

/-- Build a chain from a fresh chain by a sequence of `add_block` requests
(entry list, creator roll number, timestamp). -/
def buildChain (roll0 : String) (t0 : ℕ) (reqs : List (List Entry × String × ℕ)) :
    List Block :=
  reqs.foldl (fun c q => (add_block c q.1 q.2.1 q.2.2).1) (chainNew roll0 t0)

theorem add_block_ne_nil (c : List Block) (entries : List Entry) (roll : String) (t : ℕ)
    (hne : c ≠ []) : (add_block c entries roll t).1 ≠ [] := by
  unfold add_block
  by_cases he : entries = [] <;> simp [he, hne]

theorem buildFold_chained (reqs : List (List Entry × String × ℕ)) (c : List Block)
    (hne : c ≠ []) (h : Chained none c) :
    (reqs.foldl (fun c q => (add_block c q.1 q.2.1 q.2.2).1) c) ≠ [] ∧
      Chained none (reqs.foldl (fun c q => (add_block c q.1 q.2.1 q.2.2).1) c) := by
  induction reqs generalizing c with
  | nil => exact ⟨hne, h⟩
  | cons q rest ih =>
    simp only [List.foldl_cons]
    exact ih _ (add_block_ne_nil c q.1 q.2.1 q.2.2 hne) (chained_add_block c q.1 q.2.1 q.2.2 hne h)

theorem chainNew_chained (roll : String) (t : ℕ) : Chained none (chainNew roll t) := by
  simp [chainNew, Chained, blockOk, mkBlock, Block.recompute]

theorem firstInvalidAux_set_bad (c : List Block) (e : Option Digest) (i j : ℕ) (b' : Block)
    (hvalid : firstInvalidAux e i c = none) (hj : j < c.length)
    (hbad : b'.recompute ≠ b'.hash) :
    firstInvalidAux e i (c.set j b') = some (i + j) := by
  induction c generalizing e i j with
  | nil => exact absurd hj (by simp)
  | cons a rest ih =>
    have hok : blockOk e a = true := by
      by_contra hok
      simp [firstInvalidAux, hok] at hvalid
    cases j with
    | zero =>
      have hbadok : blockOk e b' = false := by
        simp [blockOk, hbad]
      simp [List.set, firstInvalidAux, hbadok]
    | succ j2 =>
      have hrest : firstInvalidAux (some a.recompute) (i + 1) rest = none := by
        simpa [firstInvalidAux, hok] using hvalid
      have hj2 : j2 < rest.length := by simpa using hj
      simp only [List.set, firstInvalidAux, hok, if_true, reduceIte]
      rw [ih (some a.recompute) (i + 1) j2 hrest hj2]
      congr 1
      omega

theorem balanceOf_addBal_self (l : AccountMap) (n : String) (d : ℚ) (a : Account)
    (h : l.find n = some a) : (l.addBal n d).balanceOf n = l.balanceOf n + d := by
  unfold AccountMap.balanceOf
  rw [find_addBal, h]
  simp

theorem balanceOf_addBal_other (l : AccountMap) (n m : String) (d : ℚ) (h : m ≠ n) :
    (l.addBal n d).balanceOf m = l.balanceOf m := by
  unfold AccountMap.balanceOf
  rw [find_addBal]
  cases l.find m with
  | none => rfl
  | some a => simp [h]

theorem find_addBal_of_ne (l : AccountMap) (n m : String) (d : ℚ) (h : m ≠ n) :
    (l.addBal n d).find m = l.find m := by
  rw [find_addBal]
  cases l.find m with
  | none => rfl
  | some a => simp [h]

/-! ## The claims -/

/-- C2: for every successfully applied transfer, the sum of the sender's
and the receiver's balances is unchanged by the application, and no other
account's balance changes; so the transfer alone conserves the total
balance. -/
theorem transfer_conservation (accounts acc' : AccountMap) (t : Tx)
    (h : apply_to_accounts accounts t = .ok acc') :
    acc'.balanceOf t.sender + acc'.balanceOf t.receiver =
        accounts.balanceOf t.sender + accounts.balanceOf t.receiver ∧
      ∀ n, n ≠ t.sender → n ≠ t.receiver → acc'.balanceOf n = accounts.balanceOf n := by
  unfold apply_to_accounts at h
  split at h
  next => exact absurd h (by simp)
  next hex =>
    split at h
    next => exact absurd h (by simp)
    next hbal =>
      cases h
      have hs : accounts.find t.sender ≠ none := by
        intro hh
        exact hex (Or.inl (by simp [hh]))
      have hr : accounts.find t.receiver ≠ none := by
        intro hh
        exact hex (Or.inr (by simp [hh]))
      obtain ⟨as, has⟩ := Option.ne_none_iff_exists'.mp hs
      obtain ⟨ar, har⟩ := Option.ne_none_iff_exists'.mp hr
      by_cases hsr : t.sender = t.receiver
      · constructor
        · have h1 : (accounts.addBal t.sender (-t.amount)).find t.receiver =
              some ⟨as.balance + -t.amount, as.roll_no⟩ := by
            rw [← hsr, find_addBal, has]
            simp
          have h2 := balanceOf_addBal_self (accounts.addBal t.sender (-t.amount))
            t.receiver t.amount _ h1
          have h3 := balanceOf_addBal_self accounts t.sender (-t.amount) _ has
          rw [← hsr] at h2 ⊢
          rw [h2, h3]
          ring
        · intro n hns hnr
          rw [balanceOf_addBal_other _ _ _ _ hnr, balanceOf_addBal_other _ _ _ _ hns]
      · constructor
        · have h2 : (accounts.addBal t.sender (-t.amount)).find t.receiver =
              some ar := by
            rw [find_addBal_of_ne _ _ _ _ (fun hh => hsr hh.symm), har]
          have hsender := balanceOf_addBal_other (accounts.addBal t.sender (-t.amount))
            t.receiver t.sender t.amount hsr
          have hsender2 := balanceOf_addBal_self accounts t.sender (-t.amount) _ has
          have hrecv := balanceOf_addBal_self (accounts.addBal t.sender (-t.amount))
            t.receiver t.amount _ h2
          have hrecv2 := balanceOf_addBal_other accounts t.sender t.receiver (-t.amount)
            (fun hh => hsr hh.symm)
          rw [hsender, hsender2, hrecv, hrecv2]
          ring
        · intro n hns hnr
          rw [balanceOf_addBal_other _ _ _ _ hnr, balanceOf_addBal_other _ _ _ _ hns]

/-- C2 witness: transferring 200 from A to B conserves the balance sum. -/
theorem transfer_conservation_witness :
    ∃ acc, apply_to_accounts [("A", ⟨1000, "r1"⟩), ("B", ⟨500, "r2"⟩)] ⟨"A", "B", 200⟩ =
        .ok acc ∧
      (AccountMap.balanceOf acc "A" + AccountMap.balanceOf acc "B" =
          AccountMap.balanceOf [("A", ⟨1000, "r1"⟩), ("B", ⟨500, "r2"⟩)] "A" +
            AccountMap.balanceOf [("A", ⟨1000, "r1"⟩), ("B", ⟨500, "r2"⟩)] "B") ∧
      ∀ n, n ≠ "A" → n ≠ "B" →
        AccountMap.balanceOf acc n =
          AccountMap.balanceOf [("A", ⟨1000, "r1"⟩), ("B", ⟨500, "r2"⟩)] n := by
  have happ : apply_to_accounts [("A", ⟨1000, "r1"⟩), ("B", ⟨500, "r2"⟩)] ⟨"A", "B", 200⟩ =
      .ok [("A", ⟨800, "r1"⟩), ("B", ⟨700, "r2"⟩)] := by
    simp [apply_to_accounts, AccountMap.find, AccountMap.balanceOf, AccountMap.addBal]
    norm_num
  refine ⟨[("A", ⟨800, "r1"⟩), ("B", ⟨700, "r2"⟩)], happ, ?_, ?_⟩
  · exact (transfer_conservation [("A", ⟨1000, "r1"⟩), ("B", ⟨500, "r2"⟩)]
      [("A", ⟨800, "r1"⟩), ("B", ⟨700, "r2"⟩)] ⟨"A", "B", 200⟩ happ).1
  · exact (transfer_conservation [("A", ⟨1000, "r1"⟩), ("B", ⟨500, "r2"⟩)]
      [("A", ⟨800, "r1"⟩), ("B", ⟨700, "r2"⟩)] ⟨"A", "B", 200⟩ happ).2

/-- C3: in a tax assessment at rate `r` over threshold `t`, every account
with pre-assessment balance at least `t` ends at exactly
`balance * (1 - r)`, and every account below `t` is untouched. -/
theorem levy_correctness (rate threshold : ℚ) (accounts : AccountMap)
    (name : String) (a : Account) (h : accounts.find name = some a) :
    (apply_zakat rate threshold accounts).1.find name =
      some (if a.balance ≥ threshold then ⟨a.balance * (1 - rate), a.roll_no⟩ else a) := by
  rw [find_apply_zakat, h]
  have hmap : Option.map (fun a : Account =>
      if a.balance ≥ threshold then ⟨a.balance - a.balance * rate, a.roll_no⟩ else a) (some a)
      = some (if a.balance ≥ threshold then ⟨a.balance - a.balance * rate, a.roll_no⟩ else a) :=
    rfl
  rw [hmap]
  by_cases hth : a.balance ≥ threshold
  · rw [if_pos hth, if_pos hth]
    have hb : a.balance - a.balance * rate = a.balance * (1 - rate) := by ring
    rw [hb]
  · rw [if_neg hth, if_neg hth]

/-- C3 witness: at rate 2.5 % and threshold 1000, an account at 1000 drops
to 975 and an account at 500 is untouched. -/
theorem levy_correctness_witness :
    (apply_zakat (1/40) 1000 [("A", ⟨1000, "r1"⟩), ("B", ⟨500, "r2"⟩)]).1.find "A" =
        some ⟨1000 * (1 - 1/40), "r1"⟩ ∧
      (apply_zakat (1/40) 1000 [("A", ⟨1000, "r1"⟩), ("B", ⟨500, "r2"⟩)]).1.find "B" =
        some ⟨500, "r2"⟩ := by
  constructor
  · have h := levy_correctness (1/40) 1000 [("A", ⟨1000, "r1"⟩), ("B", ⟨500, "r2"⟩)]
      "A" ⟨1000, "r1"⟩ rfl
    rw [h]
    norm_num
  · have h := levy_correctness (1/40) 1000 [("A", ⟨1000, "r1"⟩), ("B", ⟨500, "r2"⟩)]
      "B" ⟨500, "r2"⟩ rfl
    rw [h]
    norm_num

theorem consoleMine_success (s s2 : LedgerState) (now : ℕ)
    (h : consoleMine s now = (.success, s2)) :
    ∃ accF recs,
      applyAll (consoleApplyZakat s.accounts).1 s.pending = .ok (accF, recs) ∧
        s2 = ⟨accF, [],
          s.chain ++ [mkBlock (lastDigest s.chain) now
            (accF.rollOf ((s.pending.headD default).sender))
            (mineRecords0 (consoleApplyZakat s.accounts).2.1 ++ recs)]⟩ ∧
        s.pending ≠ [] := by
  unfold consoleMine at h
  by_cases hp : s.pending = []
  · rw [if_pos hp] at h
    exact absurd h (by simp)
  · rw [if_neg hp] at h
    dsimp only at h
    split at h
    next => exact absurd h (by simp)
    next accF recs heq =>
      split at h
      next => exact absurd h (by simp)
      next hrecs =>
        split at h
        next hblk =>
          refine ⟨accF, recs, heq, ?_, hp⟩
          have hs2 := congrArg Prod.snd h
          simp only at hs2
          rw [← hs2]
          have hab : add_block s.chain
              (mineRecords0 (consoleApplyZakat s.accounts).2.1 ++ recs)
              (accF.rollOf ((s.pending.headD default).sender)) now =
              (s.chain ++ [mkBlock (lastDigest s.chain) now
                (accF.rollOf ((s.pending.headD default).sender))
                (mineRecords0 (consoleApplyZakat s.accounts).2.1 ++ recs)],
                true) := by
            unfold add_block
            rw [if_neg hrecs]
          rw [hab]
        next => exact absurd h (by simp)

theorem streamlitMine_success (s s2 : LedgerState) (now : ℕ)
    (h : streamlitMine s now = (.success, s2)) :
    ∃ accF recs,
      applyAll (streamlitApplyZakat s.accounts).1 s.pending = .ok (accF, recs) ∧
        s2 = ⟨accF, [],
          s.chain ++ [mkBlock (lastDigest s.chain) now
            (accF.rollOf ((s.pending.headD default).sender))
            (streamlitRecords0 (streamlitApplyZakat s.accounts).2.1
                (streamlitApplyZakat s.accounts).2.2 ++ recs)]⟩ ∧
        s.pending ≠ [] := by
  unfold streamlitMine at h
  by_cases hp : s.pending = []
  · rw [if_pos hp] at h
    exact absurd h (by simp)
  · rw [if_neg hp] at h
    dsimp only at h
    split at h
    next => exact absurd h (by simp)
    next accF recs heq =>
      split at h
      next => exact absurd h (by simp)
      next hrecs =>
        split at h
        next hblk =>
          refine ⟨accF, recs, heq, ?_, hp⟩
          have hs2 := congrArg Prod.snd h
          simp only at hs2
          rw [← hs2]
          have hab : add_block s.chain
              (streamlitRecords0 (streamlitApplyZakat s.accounts).2.1
                (streamlitApplyZakat s.accounts).2.2 ++ recs)
              (accF.rollOf ((s.pending.headD default).sender)) now =
              (s.chain ++ [mkBlock (lastDigest s.chain) now
                (accF.rollOf ((s.pending.headD default).sender))
                (streamlitRecords0 (streamlitApplyZakat s.accounts).2.1
                  (streamlitApplyZakat s.accounts).2.2 ++ recs)],
                true) := by
            unfold add_block
            rw [if_neg hrecs]
          rw [hab]
        next => exact absurd h (by simp)

/-- C5: mining with an empty pending queue fails with the empty-batch
result and leaves the whole ledger state — chain, accounts and queue —
unchanged, in both the console and the dashboard pipeline. -/
theorem empty_batch_rejection (s : LedgerState) (now : ℕ) (h : s.pending = []) :
    consoleMine s now = (.emptyBatch, s) ∧ streamlitMine s now = (.emptyBatch, s) := by
  constructor <;> simp [consoleMine, streamlitMine, h]

/-- C5 witness: a concrete ledger with no pending transfers. -/
theorem empty_batch_rejection_witness :
    consoleMine ⟨[("A", ⟨50, "r1"⟩)], [], chainNew "SYSTEM" 0⟩ 7 =
        (.emptyBatch, ⟨[("A", ⟨50, "r1"⟩)], [], chainNew "SYSTEM" 0⟩) ∧
      streamlitMine ⟨[("A", ⟨50, "r1"⟩)], [], chainNew "SYSTEM" 0⟩ 7 =
        (.emptyBatch, ⟨[("A", ⟨50, "r1"⟩)], [], chainNew "SYSTEM" 0⟩) :=
  empty_batch_rejection ⟨[("A", ⟨50, "r1"⟩)], [], chainNew "SYSTEM" 0⟩ 7 rfl

/-- C6: for every successfully mined block, in the console and in the
roll-tracking dashboard pipeline, the block's `roll_no` is the roll number
(owner identifier) of the sender of the first transfer of the pending
batch. -/
theorem creator_is_first_sender_owner (s s2 : LedgerState) (now : ℕ) :
    (consoleMine s now = (.success, s2) →
        (s2.chain.getLast?).map Block.roll_no =
          some (s.accounts.rollOf ((s.pending.headD default).sender))) ∧
      (streamlitMine s now = (.success, s2) →
        (s2.chain.getLast?).map Block.roll_no =
          some (s.accounts.rollOf ((s.pending.headD default).sender))) := by
  constructor
  · intro h
    obtain ⟨accF, recs, happ, hs2, hp⟩ := consoleMine_success s s2 now h
    subst hs2
    simp only [List.getLast?_concat, Option.map_some']
    rw [show (mkBlock (lastDigest s.chain) now
        (accF.rollOf ((s.pending.headD default).sender)) _).roll_no =
        accF.rollOf ((s.pending.headD default).sender) from rfl]
    rw [rollOf_applyAll _ _ _ _ happ]
    exact congrArg some (rollOf_apply_zakat (1/40) 100 s.accounts _)
  · intro h
    obtain ⟨accF, recs, happ, hs2, hp⟩ := streamlitMine_success s s2 now h
    subst hs2
    simp only [List.getLast?_concat, Option.map_some']
    rw [show (mkBlock (lastDigest s.chain) now
        (accF.rollOf ((s.pending.headD default).sender)) _).roll_no =
        accF.rollOf ((s.pending.headD default).sender) from rfl]
    rw [rollOf_applyAll _ _ _ _ happ]
    exact congrArg some (rollOf_apply_zakat (1/40) 1000 s.accounts _)

/-- C10: in the console front-end, every account with balance `b` with
`100 ≤ b < 1000` is debited `b * 0.025` by the mining-time levy, while the
account view and the statistics view display a zakat due of 0 for it. -/
theorem console_threshold_mismatch (accounts : AccountMap) (name : String) (a : Account)
    (h : accounts.find name = some a) (h100 : 100 ≤ a.balance) (h1000 : a.balance < 1000) :
    (consoleApplyZakat accounts).1.find name =
        some ⟨a.balance - a.balance * (1/40), a.roll_no⟩ ∧
      displayedZakatDue a.balance = 0 := by
  constructor
  · unfold consoleApplyZakat
    rw [find_apply_zakat, h]
    have hge : a.balance ≥ (100 : ℚ) := h100
    simp [hge]
  · unfold displayedZakatDue
    rw [if_neg (not_le.mpr h1000)]

/-- C10 witness: an account at balance 500. -/
theorem console_threshold_mismatch_witness :
    (consoleApplyZakat [("A", ⟨500, "r1"⟩)]).1.find "A" =
        some ⟨500 - 500 * (1/40), "r1"⟩ ∧
      displayedZakatDue 500 = 0 := by
  have h := console_threshold_mismatch [("A", ⟨500, "r1"⟩)] "A" ⟨500, "r1"⟩
    (by simp [AccountMap.find]) (by norm_num) (by norm_num)
  exact h

theorem is_valid_iff_chained (c : List Block) :
    is_valid c = true ↔ Chained none c := by
  rw [is_valid, Option.isNone_iff_eq_none, firstInvalid, firstInvalidAux_eq_none_iff]

/-- C4: a fresh chain has length 1 and is valid; every chain built solely
by `add_block` from a fresh chain is valid; and replacing any stored
block's entry list by a different one, or its stored digest by a different
one, makes `is_valid` false, with the validation reporting exactly that
block's index as the first broken one. -/
theorem chain_validity (roll0 : String) (t0 : ℕ) (reqs : List (List Entry × String × ℕ))
    (j : ℕ) (b : Block) (ents : List Entry) (d : Digest) :
    (chainNew roll0 t0).length = 1 ∧
      is_valid (chainNew roll0 t0) = true ∧
      is_valid (buildChain roll0 t0 reqs) = true ∧
      ((buildChain roll0 t0 reqs).get? j = some b →
        (ents ≠ b.transactions →
          firstInvalid ((buildChain roll0 t0 reqs).set j
              { b with transactions := ents }) = some j ∧
            is_valid ((buildChain roll0 t0 reqs).set j
              { b with transactions := ents }) = false) ∧
        (d ≠ b.hash →
          firstInvalid ((buildChain roll0 t0 reqs).set j { b with hash := d }) = some j ∧
            is_valid ((buildChain roll0 t0 reqs).set j { b with hash := d }) = false)) := by
  have hgen : Chained none (chainNew roll0 t0) := chainNew_chained roll0 t0
  have hbuild := buildFold_chained reqs (chainNew roll0 t0) (by simp [chainNew]) hgen
  have hvalid : is_valid (buildChain roll0 t0 reqs) = true :=
    (is_valid_iff_chained _).mpr hbuild.2
  have hnone : firstInvalidAux none 0 (buildChain roll0 t0 reqs) = none := by
    rw [firstInvalidAux_eq_none_iff]
    exact hbuild.2
  refine ⟨rfl, (is_valid_iff_chained _).mpr hgen, hvalid, ?_⟩
  intro hget
  have hj : j < (buildChain roll0 t0 reqs).length := List.get?_eq_some.mp hget |>.1
  have hmem : b ∈ buildChain roll0 t0 reqs := List.get?_mem hget
  have hrec : b.recompute = b.hash := hbuild.2.recompute_eq _ none b hmem
  constructor
  · intro hne
    have hbad : ({ b with transactions := ents } : Block).recompute ≠
        ({ b with transactions := ents } : Block).hash := by
      intro hcontra
      simp only [Block.recompute] at hcontra hrec
      rw [← hrec] at hcontra
      exact hne ((Digest.node.injEq _ _ _ _ _ _ _ _).mp hcontra).2.2.2
    have hfi := firstInvalidAux_set_bad (buildChain roll0 t0 reqs) none 0 j
      { b with transactions := ents } hnone hj hbad
    rw [Nat.zero_add] at hfi
    refine ⟨hfi, ?_⟩
    simp [is_valid, firstInvalid, hfi]
  · intro hne
    have hbad : ({ b with hash := d } : Block).recompute ≠
        ({ b with hash := d } : Block).hash := by
      intro hcontra
      simp only [Block.recompute] at hcontra hrec
      exact hne (hcontra.symm.trans hrec)
    have hfi := firstInvalidAux_set_bad (buildChain roll0 t0 reqs) none 0 j
      { b with hash := d } hnone hj hbad
    rw [Nat.zero_add] at hfi
    refine ⟨hfi, ?_⟩
    simp [is_valid, firstInvalid, hfi]

/-- C4 witness: a two-block chain; replacing block 1's entry list or
digest is reported at index 1. -/
theorem chain_validity_witness :
    (buildChain "S" 0 [([Entry.genesis], "r1", 7)]).get? 1 =
        some (mkBlock (Digest.node .sentinel 0 "S" [.genesis]) 7 "r1" [.genesis]) ∧
      is_valid (buildChain "S" 0 [([Entry.genesis], "r1", 7)]) = true ∧
      firstInvalid ((buildChain "S" 0 [([Entry.genesis], "r1", 7)]).set 1
          { mkBlock (Digest.node .sentinel 0 "S" [.genesis]) 7 "r1" [.genesis] with
              transactions := [Entry.genesis, Entry.genesis] }) = some 1 ∧
      firstInvalid ((buildChain "S" 0 [([Entry.genesis], "r1", 7)]).set 1
          { mkBlock (Digest.node .sentinel 0 "S" [.genesis]) 7 "r1" [.genesis] with
              hash := Digest.sentinel }) = some 1 := by
  have hget : (buildChain "S" 0 [([Entry.genesis], "r1", 7)]).get? 1 =
      some (mkBlock (Digest.node .sentinel 0 "S" [.genesis]) 7 "r1" [.genesis]) := by decide
  have h := chain_validity "S" 0 [([Entry.genesis], "r1", 7)] 1
    (mkBlock (Digest.node .sentinel 0 "S" [.genesis]) 7 "r1" [.genesis])
    [Entry.genesis, Entry.genesis] Digest.sentinel
  exact ⟨hget, h.2.2.1, ((h.2.2.2 hget).1 (by decide)).1, ((h.2.2.2 hget).2 (by decide)).1⟩

/-- C6 witness: a concrete successful mine in each front-end. -/
theorem creator_is_first_sender_owner_witness :
    ((consoleMine ⟨[("A", ⟨1000, "r1"⟩), ("B", ⟨500, "r2"⟩)], [⟨"A", "B", 200⟩],
          chainNew "SYSTEM" 0⟩ 5).2.chain.getLast?).map Block.roll_no =
        some ((⟨[("A", ⟨1000, "r1"⟩), ("B", ⟨500, "r2"⟩)], [⟨"A", "B", 200⟩],
          chainNew "SYSTEM" 0⟩ : LedgerState).accounts.rollOf
            ((([⟨"A", "B", 200⟩] : List Tx).headD default).sender)) ∧
      ((streamlitMine ⟨[("A", ⟨2000, "r1"⟩), ("B", ⟨500, "r2"⟩)], [⟨"A", "B", 200⟩],
          chainNew "2023" 0⟩ 5).2.chain.getLast?).map Block.roll_no =
        some ((⟨[("A", ⟨2000, "r1"⟩), ("B", ⟨500, "r2"⟩)], [⟨"A", "B", 200⟩],
          chainNew "2023" 0⟩ : LedgerState).accounts.rollOf
            ((([⟨"A", "B", 200⟩] : List Tx).headD default).sender)) := by
  constructor
  · have h1 : (consoleMine ⟨[("A", ⟨1000, "r1"⟩), ("B", ⟨500, "r2"⟩)], [⟨"A", "B", 200⟩],
        chainNew "SYSTEM" 0⟩ 5).1 = .success := by
      simp +decide [consoleMine, consoleApplyZakat, apply_zakat, applyAll, apply_to_accounts,
        AccountMap.find, AccountMap.balanceOf, AccountMap.addBal, AccountMap.rollOf,
        calculate_zakat, mineRecords0]
      norm_num +decide [AccountMap.find, AccountMap.rollOf, add_block, mkBlock, lastDigest,
        chainNew]
    have h : consoleMine ⟨[("A", ⟨1000, "r1"⟩), ("B", ⟨500, "r2"⟩)], [⟨"A", "B", 200⟩],
        chainNew "SYSTEM" 0⟩ 5 =
        (.success, (consoleMine ⟨[("A", ⟨1000, "r1"⟩), ("B", ⟨500, "r2"⟩)], [⟨"A", "B", 200⟩],
          chainNew "SYSTEM" 0⟩ 5).2) := by
      rw [← h1]
    exact (creator_is_first_sender_owner _ _ 5).1 h
  · have h1 : (streamlitMine ⟨[("A", ⟨2000, "r1"⟩), ("B", ⟨500, "r2"⟩)], [⟨"A", "B", 200⟩],
        chainNew "2023" 0⟩ 5).1 = .success := by
      simp +decide [streamlitMine, streamlitApplyZakat, apply_zakat, applyAll, apply_to_accounts,
        AccountMap.find, AccountMap.balanceOf, AccountMap.addBal, AccountMap.rollOf,
        calculate_zakat, streamlitRecords0]
      norm_num +decide [AccountMap.find, AccountMap.rollOf, add_block, mkBlock, lastDigest,
        chainNew]
    have h : streamlitMine ⟨[("A", ⟨2000, "r1"⟩), ("B", ⟨500, "r2"⟩)], [⟨"A", "B", 200⟩],
        chainNew "2023" 0⟩ 5 =
        (.success, (streamlitMine ⟨[("A", ⟨2000, "r1"⟩), ("B", ⟨500, "r2"⟩)], [⟨"A", "B", 200⟩],
          chainNew "2023" 0⟩ 5).2) := by
      rw [← h1]
    exact (creator_is_first_sender_owner _ _ 5).2 h

/-- C1, behaviour of the code at the failing input: with A at 1000 and B at
50, mining the batch [A→B:200, B→A:500] fails at the second transfer, and
afterwards the zakat assessment (A: −25) and the first transfer (A: −200,
B: +200) are still applied — A ends at 775 and B at 250 instead of the
claimed rollback to 1000 and 50.  The chain and the pending queue are
unchanged and no block is appended. -/
theorem atomicity_failure_eval :
    consoleMine ⟨[("A", ⟨1000, "r1"⟩), ("B", ⟨50, "r2"⟩)],
        [⟨"A", "B", 200⟩, ⟨"B", "A", 500⟩], chainNew "SYSTEM" 0⟩ 5 =
      (.txFailed "Insufficient balance.",
        ⟨[("A", ⟨775, "r1"⟩), ("B", ⟨250, "r2"⟩)],
          [⟨"A", "B", 200⟩, ⟨"B", "A", 500⟩], chainNew "SYSTEM" 0⟩) := by
  simp +decide [consoleMine, consoleApplyZakat, apply_zakat, applyAll, apply_to_accounts,
    AccountMap.find, AccountMap.balanceOf, AccountMap.addBal, AccountMap.rollOf,
    calculate_zakat, mineRecords0]
  norm_num +decide [AccountMap.find, AccountMap.rollOf, add_block, mkBlock, lastDigest,
    chainNew]

/-- C9: a transfer accepted at submission time (A's balance 100 covers the
amount 100) fails at commit time in the same mining invocation, because
the levy first cuts A's balance to 97.5 < 100; the commit-time balance
re-check then raises and mining fails. -/
theorem levy_induced_commit_failure :
    create_transaction ⟨[("A", ⟨100, "r1"⟩), ("B", ⟨50, "r2"⟩)], [], chainNew "SYSTEM" 0⟩
        "A" "B" 100 =
      .ok ⟨[("A", ⟨100, "r1"⟩), ("B", ⟨50, "r2"⟩)], [⟨"A", "B", 100⟩], chainNew "SYSTEM" 0⟩ ∧
    (consoleApplyZakat [("A", ⟨100, "r1"⟩), ("B", ⟨50, "r2"⟩)]).1.balanceOf "A" = 195/2 ∧
    (195 : ℚ)/2 < 100 ∧
    consoleMine ⟨[("A", ⟨100, "r1"⟩), ("B", ⟨50, "r2"⟩)], [⟨"A", "B", 100⟩],
        chainNew "SYSTEM" 0⟩ 5 =
      (.txFailed "Insufficient balance.",
        ⟨[("A", ⟨195/2, "r1"⟩), ("B", ⟨50, "r2"⟩)], [⟨"A", "B", 100⟩], chainNew "SYSTEM" 0⟩) := by
  refine ⟨?_, ?_, by norm_num, ?_⟩
  · simp +decide [create_transaction, AccountMap.find, AccountMap.balanceOf]
  · simp +decide [consoleApplyZakat, apply_zakat, AccountMap.find, AccountMap.balanceOf,
      calculate_zakat]
    all_goals norm_num
  · simp +decide [consoleMine, consoleApplyZakat, apply_zakat, applyAll, apply_to_accounts,
      AccountMap.find, AccountMap.balanceOf, AccountMap.addBal, AccountMap.rollOf,
      calculate_zakat, mineRecords0]
    norm_num +decide [AccountMap.find, AccountMap.rollOf, add_block, mkBlock, lastDigest,
      chainNew]

/-- C7 counterexample: a queued transfer whose amount is not positive and
whose sender equals its receiver is accepted by the commit-time application
`apply_to_accounts`, refuting the claim that the sender ≠ receiver and
amount > 0 constraints are re-checked at commit (mining) time. -/
theorem commit_recheck_counterexample :
    apply_to_accounts [("A", ⟨100, "r1"⟩)] ⟨"A", "A", -5⟩ = .ok [("A", ⟨100, "r1"⟩)] ∧
      (⟨"A", "A", -5⟩ : Tx).amount ≤ 0 ∧
      (⟨"A", "A", -5⟩ : Tx).sender = (⟨"A", "A", -5⟩ : Tx).receiver := by
  refine ⟨?_, by norm_num, rfl⟩
  simp +decide [apply_to_accounts, AccountMap.find, AccountMap.balanceOf, AccountMap.addBal]

/-- C7 (amended): submission validates sender ≠ receiver, amount > 0,
account existence and sender balance ≥ amount, rejecting otherwise, and on
success only appends the transfer to the pending queue, leaving balances
and chain untouched; commit-time application re-checks only account
existence and balance sufficiency (not sender ≠ receiver or amount > 0). -/
theorem submission_checks (s : LedgerState) (sender receiver : String) (amount : ℚ)
    (accounts : AccountMap) (t : Tx) :
    (∀ s1, create_transaction s sender receiver amount = .ok s1 →
        s1 = ⟨s.accounts, s.pending ++ [⟨sender, receiver, amount⟩], s.chain⟩) ∧
      ((∃ e, create_transaction s sender receiver amount = .error e) ↔
        (((s.accounts.find sender).isNone ∨ (s.accounts.find receiver).isNone) ∨
          sender = receiver ∨ amount ≤ 0 ∨ s.accounts.balanceOf sender < amount)) ∧
      ((∃ m, apply_to_accounts accounts t = .error m) ↔
        (((accounts.find t.sender).isNone ∨ (accounts.find t.receiver).isNone) ∨
          accounts.balanceOf t.sender < t.amount)) := by
  refine ⟨?_, ?_, ?_⟩
  · intro s1 h
    unfold create_transaction at h
    split_ifs at h <;> cases h <;> rfl
  · unfold create_transaction
    split_ifs with h1 h2 h3 h4
    · exact iff_of_true ⟨.unknownAccount, rfl⟩ (Or.inl h1)
    · exact iff_of_true ⟨.sameAccount, rfl⟩ (Or.inr (Or.inl h2))
    · exact iff_of_true ⟨.nonPositiveAmount, rfl⟩ (Or.inr (Or.inr (Or.inl h3)))
    · exact iff_of_true ⟨.insufficientBalance, rfl⟩ (Or.inr (Or.inr (Or.inr h4)))
    · refine iff_of_false ?_ ?_
      · rintro ⟨e, he⟩
        cases he
      · rintro (h | h | h | h)
        · exact h1 h
        · exact h2 h
        · exact h3 h
        · exact h4 h
  · unfold apply_to_accounts
    split_ifs with h1 h2
    · exact iff_of_true ⟨"Sender or receiver does not exist.", rfl⟩ (Or.inl h1)
    · exact iff_of_true ⟨"Insufficient balance.", rfl⟩ (Or.inr h2)
    · refine iff_of_false ?_ ?_
      · rintro ⟨m, hm⟩
        cases hm
      · rintro (h | h)
        · exact h1 h
        · exact h2 h

/-- C7 witness: a valid submission enqueues exactly one transfer and
changes nothing else; commit-time application accepts a transfer that
violates only the sender ≠ receiver and amount > 0 constraints. -/
theorem submission_checks_witness :
    create_transaction ⟨[("A", ⟨100, "r1"⟩), ("B", ⟨50, "r2"⟩)], [], chainNew "SYSTEM" 0⟩
        "A" "B" 30 =
      .ok ⟨[("A", ⟨100, "r1"⟩), ("B", ⟨50, "r2"⟩)], [] ++ [⟨"A", "B", 30⟩],
        chainNew "SYSTEM" 0⟩ ∧
      ¬(∃ m, apply_to_accounts [("A", ⟨100, "r1"⟩)] ⟨"A", "A", -5⟩ = .error m) := by
  constructor
  · have hok : create_transaction ⟨[("A", ⟨100, "r1"⟩), ("B", ⟨50, "r2"⟩)], [],
        chainNew "SYSTEM" 0⟩ "A" "B" 30 =
        .ok ⟨[("A", ⟨100, "r1"⟩), ("B", ⟨50, "r2"⟩)], [⟨"A", "B", 30⟩],
          chainNew "SYSTEM" 0⟩ := by
      simp +decide [create_transaction, AccountMap.find, AccountMap.balanceOf]
    have hshape := (submission_checks ⟨[("A", ⟨100, "r1"⟩), ("B", ⟨50, "r2"⟩)], [],
      chainNew "SYSTEM" 0⟩ "A" "B" 30 [] ⟨"", "", 0⟩).1 _ hok
    exact hok.trans (congrArg Except.ok hshape)
  · intro hex
    have hcond := (submission_checks ⟨[("A", ⟨100, "r1"⟩), ("B", ⟨50, "r2"⟩)], [],
      chainNew "SYSTEM" 0⟩ "A" "B" 30 [("A", ⟨100, "r1"⟩)] ⟨"A", "A", -5⟩).2.2.mp hex
    rcases hcond with (h | h) | h
    · simp +decide [AccountMap.find] at h
    · simp +decide [AccountMap.find] at h
    · rw [show AccountMap.balanceOf [("A", ⟨100, "r1"⟩)] "A" = 100 by
        simp [AccountMap.balanceOf, AccountMap.find]] at h
      norm_num at h

/-- C8 counterexample: a console mine that collects a nonzero zakat total
(25 from A) produces a block whose entry log holds the zakat summary and
the transfer record but no per-account detail entry, refuting the claim
that the summary comes with per-account detail entries. -/
theorem tax_detail_entries_counterexample :
    (consoleApplyZakat [("A", ⟨1000, "r1"⟩), ("B", ⟨50, "r2"⟩)]).2.1 = 25 ∧
      ((consoleMine ⟨[("A", ⟨1000, "r1"⟩), ("B", ⟨50, "r2"⟩)], [⟨"A", "B", 200⟩],
          chainNew "SYSTEM" 0⟩ 5).2.chain.getLast?).map Block.transactions =
        some [Entry.zakatSummary 25, Entry.transferRec "A" "r1" "B" "r2" 200] ∧
      [Entry.zakatSummary 25, Entry.transferRec "A" "r1" "B" "r2" 200].all
        (fun e => !e.isZakatDetail) = true := by
  refine ⟨?_, ?_, by decide⟩
  · simp +decide [consoleApplyZakat, apply_zakat, AccountMap.find, calculate_zakat]
    norm_num
  · simp +decide [consoleMine, consoleApplyZakat, apply_zakat, applyAll, apply_to_accounts,
      AccountMap.find, AccountMap.balanceOf, AccountMap.addBal, AccountMap.rollOf,
      calculate_zakat, mineRecords0]
    norm_num +decide [AccountMap.find, AccountMap.rollOf, add_block, mkBlock, lastDigest,
      chainNew]

/-- C8 (amended): when a mine succeeds and the zakat total collected is
nonzero, the block's entry log is the zakat summary first, followed in the
console only by transfer records (the per-account detail lines are printed,
not logged) and in the roll-tracking dashboard by the per-account detail
entries and then only transfer records; when the total is zero — in
particular whenever every account is below the threshold — the log holds
only transfer records and no tax entry. -/
theorem tax_entry_placement (s s2 u u2 : LedgerState) (now : ℕ)
    (rate threshold : ℚ) (accounts : AccountMap) :
    (consoleMine s now = (.success, s2) →
      ∃ recs, recs.all Entry.isTransferRec = true ∧
        (s2.chain.getLast?).map Block.transactions =
          some (mineRecords0 (consoleApplyZakat s.accounts).2.1 ++ recs) ∧
        ((consoleApplyZakat s.accounts).2.1 > 0 →
          mineRecords0 (consoleApplyZakat s.accounts).2.1 =
            [.zakatSummary (consoleApplyZakat s.accounts).2.1]) ∧
        (¬(consoleApplyZakat s.accounts).2.1 > 0 →
          mineRecords0 (consoleApplyZakat s.accounts).2.1 = [])) ∧
      (streamlitMine u now = (.success, u2) →
        ∃ recs, recs.all Entry.isTransferRec = true ∧
          (u2.chain.getLast?).map Block.transactions =
            some (streamlitRecords0 (streamlitApplyZakat u.accounts).2.1
              (streamlitApplyZakat u.accounts).2.2 ++ recs) ∧
          ((streamlitApplyZakat u.accounts).2.1 > 0 →
            streamlitRecords0 (streamlitApplyZakat u.accounts).2.1
                (streamlitApplyZakat u.accounts).2.2 =
              .zakatSummary (streamlitApplyZakat u.accounts).2.1 ::
                (streamlitApplyZakat u.accounts).2.2.map
                  (fun d => .zakatDetail d.name d.roll_no d.amount) ∧
            ((streamlitApplyZakat u.accounts).2.2.map
              (fun d => Entry.zakatDetail d.name d.roll_no d.amount)).all
                Entry.isZakatDetail = true) ∧
          (¬(streamlitApplyZakat u.accounts).2.1 > 0 →
            streamlitRecords0 (streamlitApplyZakat u.accounts).2.1
              (streamlitApplyZakat u.accounts).2.2 = [])) ∧
      ((∀ p ∈ accounts, p.2.balance < threshold) →
        (apply_zakat rate threshold accounts).2.1 = 0) := by
  refine ⟨?_, ?_, collected_zero_of_below rate threshold accounts⟩
  · intro h
    obtain ⟨accF, recs, happ, hs2, hp⟩ := consoleMine_success s s2 now h
    subst hs2
    refine ⟨recs, isTransferRec_applyAll _ _ _ _ happ, ?_, ?_, ?_⟩
    · simp [List.getLast?_concat, mkBlock]
    · intro hz
      simp [mineRecords0, hz]
    · intro hz
      simp [mineRecords0, hz]
  · intro h
    obtain ⟨accF, recs, happ, hu2, hp⟩ := streamlitMine_success u u2 now h
    subst hu2
    refine ⟨recs, isTransferRec_applyAll _ _ _ _ happ, ?_, ?_, ?_⟩
    · simp [List.getLast?_concat, mkBlock]
    · intro hz
      refine ⟨by simp [streamlitRecords0, hz], ?_⟩
      simp [List.all_map, Entry.isZakatDetail]
    · intro hz
      simp [streamlitRecords0, hz]

/-- C8 witness: concrete successful mines in both front-ends and a concrete
account store with every balance below the threshold. -/
theorem tax_entry_placement_witness :
    (∃ recs, recs.all Entry.isTransferRec = true ∧
      ((consoleMine ⟨[("A", ⟨1000, "r1"⟩), ("B", ⟨50, "r2"⟩)], [⟨"A", "B", 200⟩],
          chainNew "SYSTEM" 0⟩ 5).2.chain.getLast?).map Block.transactions =
        some (mineRecords0
          (consoleApplyZakat [("A", ⟨1000, "r1"⟩), ("B", ⟨50, "r2"⟩)]).2.1 ++ recs)) ∧
      (∃ recs, recs.all Entry.isTransferRec = true ∧
        ((streamlitMine ⟨[("A", ⟨2000, "r1"⟩), ("B", ⟨500, "r2"⟩)], [⟨"A", "B", 200⟩],
            chainNew "2023" 0⟩ 5).2.chain.getLast?).map Block.transactions =
          some (streamlitRecords0
            (streamlitApplyZakat [("A", ⟨2000, "r1"⟩), ("B", ⟨500, "r2"⟩)]).2.1
            (streamlitApplyZakat [("A", ⟨2000, "r1"⟩), ("B", ⟨500, "r2"⟩)]).2.2 ++ recs)) ∧
      (apply_zakat (1/40) 100 [("A", ⟨50, "r1"⟩)]).2.1 = 0 := by
  have hc1 : (consoleMine ⟨[("A", ⟨1000, "r1"⟩), ("B", ⟨50, "r2"⟩)], [⟨"A", "B", 200⟩],
      chainNew "SYSTEM" 0⟩ 5).1 = .success := by
    simp +decide [consoleMine, consoleApplyZakat, apply_zakat, applyAll, apply_to_accounts,
      AccountMap.find, AccountMap.balanceOf, AccountMap.addBal, AccountMap.rollOf,
      calculate_zakat, mineRecords0]
    norm_num +decide [AccountMap.find, AccountMap.rollOf, add_block, mkBlock, lastDigest,
      chainNew]
  have hc : consoleMine ⟨[("A", ⟨1000, "r1"⟩), ("B", ⟨50, "r2"⟩)], [⟨"A", "B", 200⟩],
      chainNew "SYSTEM" 0⟩ 5 =
      (.success, (consoleMine ⟨[("A", ⟨1000, "r1"⟩), ("B", ⟨50, "r2"⟩)], [⟨"A", "B", 200⟩],
        chainNew "SYSTEM" 0⟩ 5).2) := by
    rw [← hc1]
  have hs1 : (streamlitMine ⟨[("A", ⟨2000, "r1"⟩), ("B", ⟨500, "r2"⟩)], [⟨"A", "B", 200⟩],
      chainNew "2023" 0⟩ 5).1 = .success := by
    simp +decide [streamlitMine, streamlitApplyZakat, apply_zakat, applyAll, apply_to_accounts,
      AccountMap.find, AccountMap.balanceOf, AccountMap.addBal, AccountMap.rollOf,
      calculate_zakat, streamlitRecords0]
    norm_num +decide [AccountMap.find, AccountMap.rollOf, add_block, mkBlock, lastDigest,
      chainNew]
  have hs : streamlitMine ⟨[("A", ⟨2000, "r1"⟩), ("B", ⟨500, "r2"⟩)], [⟨"A", "B", 200⟩],
      chainNew "2023" 0⟩ 5 =
      (.success, (streamlitMine ⟨[("A", ⟨2000, "r1"⟩), ("B", ⟨500, "r2"⟩)], [⟨"A", "B", 200⟩],
        chainNew "2023" 0⟩ 5).2) := by
    rw [← hs1]
  have h := tax_entry_placement ⟨[("A", ⟨1000, "r1"⟩), ("B", ⟨50, "r2"⟩)], [⟨"A", "B", 200⟩],
    chainNew "SYSTEM" 0⟩
    (consoleMine ⟨[("A", ⟨1000, "r1"⟩), ("B", ⟨50, "r2"⟩)], [⟨"A", "B", 200⟩],
      chainNew "SYSTEM" 0⟩ 5).2
    ⟨[("A", ⟨2000, "r1"⟩), ("B", ⟨500, "r2"⟩)], [⟨"A", "B", 200⟩], chainNew "2023" 0⟩
    (streamlitMine ⟨[("A", ⟨2000, "r1"⟩), ("B", ⟨500, "r2"⟩)], [⟨"A", "B", 200⟩],
      chainNew "2023" 0⟩ 5).2
    5 (1/40) 100 [("A", ⟨50, "r1"⟩)]
  obtain ⟨recs1, hr1, he1, _, _⟩ := h.1 hc
  obtain ⟨recs2, hr2, he2, _, _⟩ := h.2.1 hs
  refine ⟨⟨recs1, hr1, he1⟩, ⟨recs2, hr2, he2⟩,
    h.2.2 ?_⟩
  intro p hp
  rw [List.mem_singleton.mp hp]
  norm_num

end MiniBlockchain
